import Mathlib

/-!
Shallow embedding of the Perudo repository's game-rule engines
(dice-bluffing game and tile-rummy game) together with theorems that
settle the frozen claims about its specification.

The definitions mirror the TypeScript source:
  * `src/types.ts`                 — data model,
  * `src/utils/gameUtils.ts`       — dice-game pure helpers,
  * `src/screens/GameRoom.tsx`     — dice-game authority state machine,
  * `src/unnamed/part_004`         — rummy deck / set validity / scoring,
  * `src/screens/Lobby.tsx`        — rummy board grid codec, turn commit,
                                     and draw handling.

JavaScript numbers are embedded as `Nat` where the source only ever holds
non-negative values, and as `Int` for the dice / health counters which the
source decrements with a `<= 0` elimination test.
-/

namespace Perudo

/-- Tile colors of the rummy game (src/types.ts `TileColor`). -/
inductive TileColor where
  | red
  | blue
  | orange
  | black
deriving DecidableEq, Repr

/-- A rummy tile (src/types.ts `Tile`); `value` is 1..13 for regular tiles
and 0 for jokers. -/
structure Tile where
  id : String
  value : Nat
  color : TileColor
  isJoker : Bool
deriving DecidableEq, Repr

/-- A dice-game bid (src/types.ts `Bid`). -/
structure Bid where
  playerId : String
  quantity : Nat
  face : Nat
deriving DecidableEq, Repr

/-- A player (src/types.ts `Player`): the dice-game holdings and the rummy
holdings live on the same record, exactly as in the source. -/
structure Player where
  id : String
  name : String
  isAi : Bool
  dice : List Nat
  diceCount : Int
  health : Int
  maxHealth : Int
  hand : List Tile
  hasInitialMeld : Bool
  isEliminated : Bool
deriving DecidableEq, Repr

/-- Game phase (src/types.ts `GamePhase`). -/
inductive GamePhase where
  | LOBBY
  | PLAYING
  | ROUND_END
  | GAME_OVER
deriving DecidableEq, Repr

/-- Dice-game mode (src/types.ts `GameMode`). -/
inductive GameMode where
  | classic
  | hearts
deriving DecidableEq, Repr

/-! ## Dice rule engine (src/utils/gameUtils.ts) -/

/-- src/utils/gameUtils.ts `isValidBid`: an opening bid (no current bid) is
always accepted ("within bounds (handled by UI)" per the source comment);
otherwise the `(quantity, face)` order must strictly increase. -/
def isValidBid (currentBid : Option Bid) (newQuantity newFace : Nat) : Bool :=
  match currentBid with
  | none => true
  | some b =>
    if b.quantity < newQuantity then true
    else if newQuantity = b.quantity ∧ b.face < newFace then true
    else false

/-- src/utils/gameUtils.ts `countDice`: counts, over all players' dice, the
faces equal to the target or equal to 1 (wild). -/
def countDice (players : List Player) (targetFace : Nat) : Nat :=
  players.foldl (fun count p =>
    p.dice.foldl (fun c face => if face = targetFace ∨ face = 1 then c + 1 else c) count) 0

/-! ## Dice-game authority state machine (src/screens/GameRoom.tsx) -/

/-- The canonical dice-game state fields touched by bidding and round
resolution (src/types.ts `GameState`, dice-game part). -/
structure DiceGameState where
  players : List Player
  currentPlayerIndex : Nat
  currentBid : Option Bid
  bidHistory : List Bid
  phase : GamePhase
  roundWinner : Option String
  finalLoser : Option String
  gameMode : GameMode
deriving DecidableEq, Repr

/-- Whether `players[i]` exists and is eliminated. -/
def isElimAt (players : List Player) (i : Nat) : Bool :=
  match players[i]? with
  | some p => p.isEliminated
  | none => false

/-- The `while (players[nextIndex].isEliminated) nextIndex = (nextIndex+1) % n`
loop of `submitBid` (src/screens/GameRoom.tsx), run with explicit fuel; with
at least one live player, `players.length` steps suffice. -/
def skipEliminated (players : List Player) : Nat → Nat → Nat
  | _, 0 => 0
  | i, fuel + 1 =>
    if isElimAt players i then skipEliminated players ((i + 1) % players.length) fuel else i

/-- Next-player index as computed by `submitBid` (src/screens/GameRoom.tsx). -/
def advanceIndex (players : List Player) (idx : Nat) : Nat :=
  skipEliminated players ((idx + 1) % players.length) players.length

/-- Canonical-state part of `submitBid` (src/screens/GameRoom.tsx, host path):
the bid is installed and the turn advances, with no validity check. (Log text
and the host's local bid-selector UI sugar are omitted.) -/
def submitBid (st : DiceGameState) (playerId : String) (quantity face : Nat) :
    DiceGameState :=
  let newBid : Bid := ⟨playerId, quantity, face⟩
  { st with
    currentBid := some newBid
    bidHistory := st.bidHistory ++ [newBid]
    currentPlayerIndex := advanceIndex st.players st.currentPlayerIndex }

/-- The `BID` case of the host's `handleNetworkAction`
(src/screens/GameRoom.tsx): if a current player exists, the bid is applied via
`submitBid` on their behalf — without any `isValidBid` check. -/
def applyNetworkBid (st : DiceGameState) (quantity face : Nat) : DiceGameState :=
  match st.players[st.currentPlayerIndex]? with
  | none => st
  | some p => submitBid st p.id quantity face

/-- Loser determination of `handleChallenge` (src/screens/GameRoom.tsx):
if the actual count meets the bid the challenger loses, else the bidder. -/
def challengeLoser (players : List Player) (bid : Bid) (challengerId : String) :
    String :=
  if bid.quantity ≤ countDice players bid.face then challengerId else bid.playerId

/-- What happens after the loser's penalty is applied
(src/screens/GameRoom.tsx `resolveRound`): either the game ends or a new round
starts at the given index. -/
inductive RoundOutcome where
  | gameOver (winnerName : String) (loserName : String)
  | newRound (nextStarterIdx : Nat)
deriving DecidableEq, Repr

/-- The `do { idx = (idx+1) % n } while (eliminated)` search for the next
round's starter in `resolveRound`, with explicit fuel. -/
def nextStarterFrom (players : List Player) : Nat → Nat → Nat
  | i, 0 => i
  | i, fuel + 1 =>
    let j := (i + 1) % players.length
    if isElimAt players j then nextStarterFrom players j fuel else j

/-- The penalty `map` of src/screens/GameRoom.tsx `resolveRound`: the loser
loses one die (classic) or one heart (hearts) and is eliminated when the
counter drops to `<= 0`; everyone else is untouched. -/
def applyPenalty (st : DiceGameState) (loserId : String) : List Player :=
  st.players.map fun p =>
    if p.id = loserId then
      if st.gameMode = GameMode.hearts then
        { p with health := p.health - 1, isEliminated := p.health - 1 ≤ 0 }
      else
        { p with diceCount := p.diceCount - 1, isEliminated := p.diceCount - 1 ≤ 0 }
    else p

/-- src/screens/GameRoom.tsx `resolveRound`: apply the loser's penalty; if
exactly one non-eliminated player remains the game is over with that player as
winner and the loser recorded as final loser, else a new round starts from the
loser (or the next live player after an eliminated loser).  The dice re-rolls
of `startNewRound` are random and are cut off at the `newRound` outcome. -/
def resolveRound (st : DiceGameState) (loserId : String) :
    DiceGameState × RoundOutcome :=
  let updatedPlayers := applyPenalty st loserId
  match updatedPlayers.filter (fun p => !p.isEliminated) with
  | [w] =>
    let loserName := ((updatedPlayers.find? (fun p => p.id = loserId)).map
      (fun p => p.name)).getD "Unknown"
    ({ st with
        players := updatedPlayers
        phase := GamePhase.GAME_OVER
        roundWinner := some w.name
        finalLoser := some loserName },
      RoundOutcome.gameOver w.name loserName)
  | _ =>
    let i := updatedPlayers.findIdx (fun p => p.id = loserId)
    let nextStarterIdx :=
      if isElimAt updatedPlayers i then
        nextStarterFrom updatedPlayers i updatedPlayers.length
      else i
    ({ st with players := updatedPlayers }, RoundOutcome.newRound nextStarterIdx)

/-! ## Rummy rule engine (src/unnamed/part_004) -/

/-- The non-joker tiles of a list, in order (`tiles.filter(t => !t.isJoker)`). -/
def nonJokersOf (tiles : List Tile) : List Tile :=
  tiles.filter (fun t => !t.isJoker)

/-- `[...tiles].sort((a,b) => a.value - b.value)`: a stable sort by ascending
tile value, modelled with insertion sort (JS engines sort stably). -/
def sortTilesByValue (tiles : List Tile) : List Tile :=
  tiles.insertionSort (fun a b => a.value ≤ b.value)

/-- The seen-color `Set` loop of `isGroup` (src/unnamed/part_004): false as
soon as a color repeats among the non-jokers. -/
def groupColorsUnique : List Tile → List TileColor → Bool
  | [], _ => true
  | t :: rest, seen =>
    if t.color ∈ seen then false else groupColorsUnique rest (t.color :: seen)

/-- src/unnamed/part_004 `isGroup`: at most 4 tiles, all non-jokers share one
value, non-joker colors pairwise distinct; an all-joker list is valid. -/
def isGroup (tiles : List Tile) : Bool :=
  if 4 < tiles.length then false
  else
    match nonJokersOf tiles with
    | [] => true
    | t0 :: _ =>
      if (nonJokersOf tiles).any (fun t => t.value ≠ t0.value) then false
      else groupColorsUnique (nonJokersOf tiles) []

/-- The gap-filling loop of `isRun` (src/unnamed/part_004) over the
value-sorted non-jokers, with the remaining joker budget as an `Int` exactly
like the JS number it models. -/
def runGapCheck : List Tile → Int → Bool
  | [], _ => true
  | [_], _ => true
  | a :: b :: rest, jokerCount =>
    let diff : Int := (b.value : Int) - (a.value : Int)
    if diff = 0 then false
    else if 1 < diff then
      if diff - 1 ≤ jokerCount then runGapCheck (b :: rest) (jokerCount - (diff - 1))
      else false
    else runGapCheck (b :: rest) jokerCount

/-- src/unnamed/part_004 `isRun`: all non-jokers share one color and the
sorted values are strictly increasing with gaps fillable by the jokers. -/
def isRun (tiles : List Tile) : Bool :=
  match nonJokersOf tiles with
  | [] => true
  | t0 :: _ =>
    if (nonJokersOf tiles).any (fun t => t.color ≠ t0.color) then false
    else
      runGapCheck (sortTilesByValue (nonJokersOf tiles))
        ((tiles.length : Int) - ((nonJokersOf tiles).length : Int))

/-- src/unnamed/part_004 `isValidSet`: at least 3 tiles forming a group or a
run. -/
def isValidSet (tiles : List Tile) : Bool :=
  if tiles.length < 3 then false else isGroup tiles || isRun tiles

/-- The free-joker extension loop of `calculateSetScore`
(src/unnamed/part_004): each leftover joker extends the sequence upward while
`rightVal <= 13`, then downward while `leftVal >= 1`, else is dropped. -/
def extendSeq : Nat → Nat → Nat → List Nat → List Nat
  | 0, _, _, seq => seq
  | k + 1, rightVal, leftVal, seq =>
    if rightVal ≤ 13 then extendSeq k (rightVal + 1) leftVal (seq ++ [rightVal])
    else if 1 ≤ leftVal then extendSeq k rightVal (leftVal - 1) (leftVal :: seq)
    else extendSeq k rightVal leftVal seq

/-- The run branch of `calculateSetScore` (src/unnamed/part_004).  Inside the
`isRun` guard every JS subtraction is non-negative, so `Nat` subtraction is
exact there; `leftVal - 1` at `leftVal = 0` stays 0 and, like the JS `-1`,
permanently fails the `leftVal >= 1` test. -/
def runScoreAux (tiles : List Tile) : Nat :=
  if isRun tiles then
    match sortTilesByValue (nonJokersOf tiles) with
    | [] => 0
    | t0 :: rest =>
      let sortedNonJokers := t0 :: rest
      let jokerTotal := (tiles.filter (fun t => t.isJoker)).length
      let minVal := t0.value
      let maxVal := (sortedNonJokers.getLast (List.cons_ne_nil t0 rest)).value
      let rangeNeeded := maxVal - minVal + 1
      let jokersForGaps := rangeNeeded - sortedNonJokers.length
      let freeJokers := jokerTotal - jokersForGaps
      let finalSeq := List.range' minVal rangeNeeded
      (extendSeq freeJokers (maxVal + 1) (minVal - 1) finalSeq).sum
  else 0

/-- src/unnamed/part_004 `calculateSetScore`: 0 for an invalid set; a group
holding a non-joker scores `length * value`; otherwise a run is scored by the
joker-assignment loop; anything else scores 0. -/
def calculateSetScore (tiles : List Tile) : Nat :=
  if !isValidSet tiles then 0
  else
    match tiles.find? (fun t => !t.isJoker) with
    | some nonJoker =>
      if isGroup tiles then tiles.length * nonJoker.value
      else runScoreAux tiles
    | none => runScoreAux tiles

/-- Alphabetical rank of a color's name: the order `localeCompare` gives on
the color strings `"black" < "blue" < "orange" < "red"`. -/
def colorRank : TileColor → Nat
  | TileColor.black => 0
  | TileColor.blue => 1
  | TileColor.orange => 2
  | TileColor.red => 3

/-- The hand-sort comparator of `sortHand` (src/unnamed/part_004): jokers at
the end, then by color (`localeCompare`), then by ascending value. -/
def handCmpLE (a b : Tile) : Bool :=
  if a.isJoker then false
  else if b.isJoker then true
  else if a.color = b.color then a.value ≤ b.value
  else colorRank a.color ≤ colorRank b.color

/-- src/unnamed/part_004 `sortHand`, modelled with a stable insertion sort. -/
def sortHand (hand : List Tile) : List Tile :=
  hand.insertionSort (fun a b => handCmpLE a b = true)

/-! ## Rummy board and turn handling (src/screens/Lobby.tsx) -/

/-- src/screens/Lobby.tsx `BOARD_COLS`. -/
def BOARD_COLS : Nat := 13

/-- src/screens/Lobby.tsx `MIN_BOARD_ROWS`. -/
def MIN_BOARD_ROWS : Nat := 6

/-- The internal-gap loop of `organizeSet` (src/screens/Lobby.tsx): walking
the sorted regular tiles, each gap consumes up to `gap` jokers from the front
of the joker list; returns the arranged tail after `prev` together with the
jokers left over. -/
def fillRunGaps (prev : Tile) : List Tile → List Tile → List Tile × List Tile
  | [], jokers => ([], jokers)
  | curr :: rest, jokers =>
    let diff := curr.value - prev.value
    if 1 < diff then
      let res := fillRunGaps curr rest (jokers.drop (diff - 1))
      (jokers.take (diff - 1) ++ curr :: res.1, res.2)
    else
      let res := fillRunGaps curr rest jokers
      (curr :: res.1, res.2)

/-- src/screens/Lobby.tsx `organizeSet`: groups keep `regular ++ jokers`;
runs get jokers inserted into internal gaps, then appended while the last
value is below 13, and any remainder `unshift`ed to the front (hence in
reverse order), exactly like the source's `shift`/`unshift` loops. -/
def organizeSet (tiles : List Tile) : List Tile :=
  match tiles with
  | [] => []
  | _ :: _ =>
    match sortTilesByValue (nonJokersOf tiles) with
    | [] => tiles
    | r0 :: rrest =>
      let regular := r0 :: rrest
      if regular.all (fun t => t.value = r0.value) then
        regular ++ tiles.filter (fun t => t.isJoker)
      else
        let jokers := tiles.filter (fun t => t.isJoker)
        let res := fillRunGaps r0 rrest jokers
        let result := r0 :: res.1
        let lastVal := (regular.getLast (List.cons_ne_nil r0 rrest)).value
        let upCount := min res.2.length (13 - lastVal)
        (res.2.drop upCount).reverse ++ result ++ res.2.take upCount

/-- The set-placement loop of `setsToGrid` (src/screens/Lobby.tsx): a set that
would cross the row boundary first pads the current row with `null`s; each
placed set is followed by one `null` separator when room remains in its row.
Returns the grid cells plus the final `currentCol` / `currentRowCount`. -/
def placeSets : List (List Tile) → Nat → Nat → List (Option Tile) × Nat × Nat
  | [], col, rows => ([], col, rows)
  | s :: rest, col, rows =>
    let wrap := BOARD_COLS < col + s.length
    let pad : List (Option Tile) := if wrap then List.replicate (BOARD_COLS - col) none else []
    let col1 := if wrap then 0 else col
    let rows1 := if wrap then rows + 1 else rows
    let col2 := col1 + s.length
    if col2 < BOARD_COLS then
      let res := placeSets rest (col2 + 1) rows1
      (pad ++ s.map some ++ none :: res.1, res.2)
    else
      let res := placeSets rest col2 rows1
      (pad ++ s.map some ++ res.1, res.2)

/-- src/screens/Lobby.tsx `setsToGrid`: place all sets, pad the last row, and
append empty rows up to `MIN_BOARD_ROWS + 2`. -/
def setsToGrid (sets : List (List Tile)) : List (Option Tile) :=
  let res := placeSets sets 0 0
  let grid := res.1 ++ List.replicate (BOARD_COLS - res.2.1) none
  let rows := res.2.2 + 1
  grid ++ List.replicate ((MIN_BOARD_ROWS + 2 - rows) * BOARD_COLS) none

/-- The scanning loop of `gridToSets` (src/screens/Lobby.tsx): `i` is the cell
index; a set in progress is force-closed at every row start (`i % 13 = 0`,
`i > 0`) and at every `null` cell. -/
def gridToSetsGo : List (Option Tile) → Nat → List Tile → List (List Tile)
  | [], _, cur => if cur.isEmpty then [] else [cur]
  | cell :: rest, i, cur =>
    let break' := 0 < i ∧ i % BOARD_COLS = 0 ∧ cur ≠ []
    let emitted : List (List Tile) := if break' then [cur] else []
    let cur1 := if break' then [] else cur
    match cell with
    | some t => emitted ++ gridToSetsGo rest (i + 1) (cur1 ++ [t])
    | none =>
      if cur1 = [] then emitted ++ gridToSetsGo rest (i + 1) []
      else emitted ++ cur1 :: gridToSetsGo rest (i + 1) []

/-- src/screens/Lobby.tsx `gridToSets`. -/
def gridToSets (grid : List (Option Tile)) : List (List Tile) :=
  gridToSetsGo grid 0 []

/-- The acting player's local (working) rummy state used by `handleConfirm`,
`handleDraw` and `handleReset` (src/screens/Lobby.tsx); `hasInitialMeld` is
the acting player's ice-broken flag (`myPlayer.hasInitialMeld`). -/
structure RummyLocalState where
  workingHand : List Tile
  initialTurnHand : List Tile
  workingGrid : List (Option Tile)
  boardGrid : List (Option Tile)
  hasInitialMeld : Bool
deriving DecidableEq, Repr

/-- The network messages a turn-commit or draw can emit
(src/types.ts `NetworkAction`, rummy subset). -/
inductive RummyMsg where
  | updateBoard (boardSets : List (List Tile)) (hand : List Tile)
  | draw
deriving DecidableEq, Repr

/-- The ids in the working hand that were not in the turn's starting hand —
the "stolen from the board" tiles of `handleConfirm`
(src/screens/Lobby.tsx). -/
def stolenTiles (st : RummyLocalState) : List String :=
  (st.workingHand.map Tile.id).filter
    (fun i => !(st.initialTurnHand.map Tile.id).contains i)

/-- The tiles of the starting hand that are no longer in the working hand
(the tiles played this turn), as computed by `handleConfirm`
(src/screens/Lobby.tsx). -/
def playedTiles (st : RummyLocalState) : List Tile :=
  st.initialTurnHand.filter
    (fun t => !(st.workingHand.map Tile.id).contains t.id)

/-- The ice-breaking score of `handleConfirm` (src/screens/Lobby.tsx): the sum
over the tiles that left the hand of 30 for a joker, else the face value. -/
def playedScore (st : RummyLocalState) : Nat :=
  (playedTiles st).foldl (fun sum t => sum + (if t.isJoker then 30 else t.value)) 0

/-- src/screens/Lobby.tsx `handleConfirm`: the four sequential rejection
guards, then the `RUMMIKUB_UPDATE_BOARD` send plus
`setInitialTurnHand(workingHand)`.  Returns the new local state together with
the messages handed to the network (for the host, to `handleNetworkAction`).
Every rejection path `return`s before any mutation or send. -/
def handleConfirm (st : RummyLocalState) : RummyLocalState × List RummyMsg :=
  if st.initialTurnHand.length ≤ st.workingHand.length then (st, [])
  else
    let sets := (gridToSets st.workingGrid).map organizeSet
    if !sets.all isValidSet then (st, [])
    else if stolenTiles st ≠ [] then (st, [])
    else if !st.hasInitialMeld ∧ playedScore st < 30 then (st, [])
    else ({ st with initialTurnHand := st.workingHand },
      [RummyMsg.updateBoard sets st.workingHand])

/-- src/screens/Lobby.tsx `handleDraw`: rejected unless the working hand has
the same length as the starting hand; otherwise `handleReset` restores the
working grid/hand and a `RUMMIKUB_DRAW` is sent. -/
def handleDraw (st : RummyLocalState) : RummyLocalState × List RummyMsg :=
  if st.workingHand.length ≠ st.initialTurnHand.length then (st, [])
  else
    ({ st with workingGrid := st.boardGrid, workingHand := st.initialTurnHand },
      [RummyMsg.draw])

/-- The host's canonical rummy state fields touched by
`handleNetworkAction` (src/screens/Lobby.tsx). -/
structure RummyHostState where
  players : List Player
  currentPlayerIndex : Nat
  deck : List Tile
  tilePoolCount : Nat
  boardGrid : List (Option Tile)
  phase : GamePhase
  winner : Option String
deriving DecidableEq, Repr

/-- The log events of the host's `RUMMIKUB_DRAW` case
(src/screens/Lobby.tsx), with the Chinese log strings abstracted to tags. -/
inductive RummyEvent where
  | drewTile (name : String)
  | poolEmptySkip (name : String)
deriving DecidableEq, Repr

/-- The `RUMMIKUB_DRAW` case of the host's `handleNetworkAction`
(src/screens/Lobby.tsx): with tiles left, the deck's first tile moves into the
acting player's (re-sorted) hand; with an empty pool only the skip event is
logged; either way the turn advances and the board grid is untouched.  (The
source indexes `players[currentPlayerIndex]` unconditionally; the `none` arm
is the unreachable missing-player guard.) -/
def hostDraw (st : RummyHostState) : RummyHostState × List RummyEvent :=
  match st.players[st.currentPlayerIndex]? with
  | none => (st, [])
  | some player =>
    match st.deck with
    | drawTile :: restDeck =>
      let newHand := sortHand (player.hand ++ [drawTile])
      ({ st with
          players := st.players.set st.currentPlayerIndex { player with hand := newHand }
          currentPlayerIndex := (st.currentPlayerIndex + 1) % st.players.length
          deck := restDeck
          tilePoolCount := restDeck.length },
        [RummyEvent.drewTile player.name])
    | [] =>
      ({ st with
          currentPlayerIndex := (st.currentPlayerIndex + 1) % st.players.length
          deck := []
          tilePoolCount := 0 },
        [RummyEvent.poolEmptySkip player.name])

/-- The `RUMMIKUB_UPDATE_BOARD` case of the host's `handleNetworkAction`
(src/screens/Lobby.tsx): the acting player's hand is replaced, their
`hasInitialMeld` flag is set true, the board grid is re-encoded from the sets,
an empty hand ends the game, and the turn advances. -/
def hostUpdateBoard (st : RummyHostState) (boardSets : List (List Tile))
    (hand : List Tile) : RummyHostState :=
  match st.players[st.currentPlayerIndex]? with
  | none => st
  | some player =>
    { st with
      players := st.players.set st.currentPlayerIndex
        { player with hand := hand, hasInitialMeld := true }
      boardGrid := setsToGrid boardSets
      currentPlayerIndex := (st.currentPlayerIndex + 1) % st.players.length
      phase := if hand.length = 0 then GamePhase.GAME_OVER else st.phase
      winner := if hand.length = 0 then some player.name else st.winner }

/-! ## Spec-side predicates (claim C6's wording) -/

/-- The group shape as the spec words it: at most 4 tiles, all non-joker tiles
share one face value, non-joker colors pairwise distinct. -/
def specGroup (tiles : List Tile) : Prop :=
  tiles.length ≤ 4 ∧
  (∀ a ∈ nonJokersOf tiles, ∀ b ∈ nonJokersOf tiles, a.value = b.value) ∧
  ((nonJokersOf tiles).map Tile.color).Nodup

/-- The run shape as the spec words it: all non-joker tiles share one color,
no duplicate value among non-jokers (so the sorted values are strictly
increasing), and the value range is coverable by the tiles at hand — for the
extreme values `a` (max) and `b` (min), `a - b + 1 ≤ #tiles`, i.e. the gaps
are fillable by the available jokers. -/
def specRun (tiles : List Tile) : Prop :=
  (∀ a ∈ nonJokersOf tiles, ∀ b ∈ nonJokersOf tiles, a.color = b.color) ∧
  ((nonJokersOf tiles).map Tile.value).Nodup ∧
  (∀ a ∈ nonJokersOf tiles, ∀ b ∈ nonJokersOf tiles,
    a.value + 1 ≤ b.value + tiles.length)

instance (tiles : List Tile) : Decidable (specGroup tiles) := by
  unfold specGroup; infer_instance

instance (tiles : List Tile) : Decidable (specRun tiles) := by
  unfold specRun; infer_instance

/-! ## Concrete example inputs used by witnesses and counterexamples -/

/-- The deck's first joker (src/unnamed/part_004 `generateDeck`). -/
def exJoker1 : Tile := { id := "joker-1", value := 0, color := TileColor.black, isJoker := true }

/-- The deck's second joker. -/
def exJoker2 : Tile := { id := "joker-2", value := 0, color := TileColor.red, isJoker := true }

/-- A red tile of the given value. -/
def exRed (v : Nat) : Tile := { id := "r-" ++ toString v, value := v, color := TileColor.red, isJoker := false }

/-- A second copy of the red tile of the given value (distinct id). -/
def exRedB (v : Nat) : Tile := { id := "rB-" ++ toString v, value := v, color := TileColor.red, isJoker := false }

/-- A blue tile of the given value. -/
def exBlue (v : Nat) : Tile := { id := "b-" ++ toString v, value := v, color := TileColor.blue, isJoker := false }

/-- A black tile of the given value. -/
def exBlack (v : Nat) : Tile := { id := "k-" ++ toString v, value := v, color := TileColor.black, isJoker := false }

/-- An orange tile of the given value. -/
def exOrange (v : Nat) : Tile := { id := "o-" ++ toString v, value := v, color := TileColor.orange, isJoker := false }

/-- A dice-game player with the given id, name, dice and dice count. -/
def exDicePlayer (i n : String) (dice : List Nat) (count : Int) : Player :=
  { id := i, name := n, isAi := false, dice := dice, diceCount := count,
    health := 3, maxHealth := 3, hand := [], hasInitialMeld := false,
    isEliminated := false }

/-- The spec's wildcard example holder: dice `[1,1,3,4]`. -/
def ex2Player : Player := exDicePlayer "p1" "Alice" [1, 1, 3, 4] 4

/-- A two-player dice game with a standing bid of five 4s, Bob (one die
left) to act. -/
def ex3State : DiceGameState :=
  { players := [exDicePlayer "p1" "Alice" [4, 4, 1] 3, exDicePlayer "p2" "Bob" [4, 4] 1]
    currentPlayerIndex := 1
    currentBid := some { playerId := "p1", quantity := 5, face := 4 }
    bidHistory := [{ playerId := "p1", quantity := 5, face := 4 }]
    phase := GamePhase.PLAYING
    roundWinner := none
    finalLoser := none
    gameMode := GameMode.classic }

/-- Five jokers: an all-joker candidate set longer than a group can be. -/
def ex10Tiles : List Tile := List.replicate 5 exJoker1

/-- A rummy player with the given id, name, hand and ice-broken flag. -/
def exRummyPlayer (i n : String) (hand : List Tile) (meld : Bool) : Player :=
  { id := i, name := n, isAi := false, dice := [], diceCount := 0,
    health := 0, maxHealth := 0, hand := hand, hasInitialMeld := meld,
    isEliminated := false }

/-- A local turn state that has not broken the ice and plays the run
`[5 red, 6 red, joker]` (worth 18 by `calculateSetScore`) while keeping one
tile back. -/
def c5exState : RummyLocalState :=
  { workingHand := [exOrange 9]
    initialTurnHand := [exRed 5, exRed 6, exJoker1, exOrange 9]
    workingGrid := setsToGrid [[exRed 5, exRed 6, exJoker1]]
    boardGrid := setsToGrid []
    hasInitialMeld := false }

/-- A local turn state below the ice-breaking threshold: it plays only the
lone `[2 red]` (2 points) out of a two-tile hand. -/
def c5loState : RummyLocalState :=
  { workingHand := [exRed 9]
    initialTurnHand := [exRed 2, exRed 9]
    workingGrid := setsToGrid [[exRed 2]]
    boardGrid := setsToGrid []
    hasInitialMeld := false }

/-- A rummy host state with Alice (holding `[5 red]`) to act and one tile
left in the pool. -/
def ex5Host : RummyHostState :=
  { players := [exRummyPlayer "p1" "Alice" [exRed 5] false,
                exRummyPlayer "p2" "Bob" [exBlue 8] false]
    currentPlayerIndex := 0
    deck := [exBlue 7]
    tilePoolCount := 1
    boardGrid := setsToGrid []
    phase := GamePhase.PLAYING
    winner := none }

/-- A no-op local turn state: the working hand equals the starting hand. -/
def ex8State : RummyLocalState :=
  { workingHand := [exRed 5]
    initialTurnHand := [exRed 5]
    workingGrid := setsToGrid []
    boardGrid := setsToGrid []
    hasInitialMeld := false }

/-- A local turn state whose working hand has the same length as — but
different contents from — the starting hand (a tile was swapped with the
board). -/
def ex9State : RummyLocalState :=
  { workingHand := [exBlue 7]
    initialTurnHand := [exRed 5]
    workingGrid := setsToGrid []
    boardGrid := setsToGrid []
    hasInitialMeld := true }

/-- The spec's round-trip example: sets `[[A,B,C],[D,E]]`. -/
def c1Sets : List (List Tile) :=
  [[exRed 1, exRed 2, exRed 3], [exBlue 7, exBlack 7]]

/-- The group `[7 red, 7 blue, 7 black]` from the spec's examples. -/
def c7groupTiles : List Tile := [exRed 7, exBlue 7, exBlack 7]

/-- The run `[5 red, 6 red, joker]` from the spec's examples. -/
def c6runTiles : List Tile := [exRed 5, exRed 6, exJoker1]

/-- The run `[12 red, 13 red, joker, joker]`, whose leftover jokers must
extend downward once 13 is reached. -/
def c7runTiles : List Tile := [exRed 12, exRed 13, exJoker1, exJoker2]

/-- `[7 red, joker, joker]`: simultaneously a valid group and a valid run. -/
def c7overlapTiles : List Tile := [exRed 7, exJoker1, exJoker2]

/-- A rummy host state identical to `ex5Host` but with an empty pool. -/
def ex9EmptyHost : RummyHostState :=
  { players := [exRummyPlayer "p1" "Alice" [exRed 5] false,
                exRummyPlayer "p2" "Bob" [exBlue 8] false]
    currentPlayerIndex := 0
    deck := []
    tilePoolCount := 0
    boardGrid := setsToGrid []
    phase := GamePhase.PLAYING
    winner := none }

/-!
# Theorems

Helper lemmas first, then per-claim theorems, witnesses and counterexamples.
-/

/-- The inner dice loop of `countDice` counts matches of the target face and
of the wild 1, collapsing to plain 1-counting when the target is 1. -/
theorem countDice_inner (f : Nat) (l : List Nat) (c : Nat) :
    l.foldl (fun c face => if face = f ∨ face = 1 then c + 1 else c) c
      = c + (if f = 1 then l.count 1 else l.count f + l.count 1) := by
  induction l generalizing c with
  | nil => simp
  | cons a l ih =>
    rw [List.foldl_cons, ih]
    by_cases h1 : f = 1 <;> by_cases h2 : a = f <;> by_cases h3 : a = 1 <;>
      simp [List.count_cons, h1, h2, h3] <;> omega

/-- `countDice` as a per-player sum of 1-wildcarded face counts. -/
theorem countDice_eq (ps : List Player) (f : Nat) :
    countDice ps f
      = (ps.map fun p => if f = 1 then p.dice.count 1 else p.dice.count f + p.dice.count 1).sum := by
  have key : ∀ (qs : List Player) (c : Nat),
      qs.foldl (fun count p =>
          p.dice.foldl (fun c face => if face = f ∨ face = 1 then c + 1 else c) count) c
        = c + (qs.map fun p =>
            if f = 1 then p.dice.count 1 else p.dice.count f + p.dice.count 1).sum := by
    intro qs
    induction qs with
    | nil => intro c; simp
    | cons p ps ih =>
      intro c
      rw [List.foldl_cons, countDice_inner, ih, List.map_cons, List.sum_cons]
      omega
  simpa [countDice] using key ps 0

/-- Sums of pointwise-added maps split. -/
theorem sum_map_add_split (ps : List Player) (g h : Player → Nat) :
    (ps.map fun p => g p + h p).sum = (ps.map g).sum + (ps.map h).sum := by
  induction ps with
  | nil => simp
  | cons p ps ih => simp [ih]; omega

/-- **C2** (confirmed): `countDice` returns, for a target face other than 1,
the number of dice equal to the target plus the number of dice equal to 1
(the wildcard); for target face 1 only dice equal to 1 are counted.  On dice
`[1,1,3,4]` the count is 3 for face 3 and 2 for face 1. -/
theorem countDice_wildcard_spec (players : List Player) (face : Nat) :
    countDice players face
      = (if face = 1 then (players.map fun p => p.dice.count 1).sum
         else (players.map fun p => p.dice.count face).sum
            + (players.map fun p => p.dice.count 1).sum) ∧
    countDice [ex2Player] 3 = 3 ∧ countDice [ex2Player] 1 = 2 := by
  refine ⟨?_, by decide, by decide⟩
  rw [countDice_eq]
  by_cases h : face = 1
  · simp [h]
  · simp only [h, if_false]
    exact sum_map_add_split players _ _

/-- **C3** (counterexample): the claim is false on the code in both halves —
`isValidBid` accepts the opening bid "0 dice showing 7" although its quantity
is below 1 and its face outside 1..6, and the authority applies a network bid
of one 1 over a standing bid of five 4s, changing state instead of rejecting
it. -/
theorem isValidBid_claim_counterexample :
    isValidBid none 0 7 = true ∧ ¬ 1 ≤ (0 : Nat) ∧ ¬ (7 : Nat) ≤ 6 ∧
    isValidBid ex3State.currentBid 1 1 = false ∧
    applyNetworkBid ex3State 1 1 ≠ ex3State ∧
    (applyNetworkBid ex3State 1 1).currentBid
      = some { playerId := "p2", quantity := 1, face := 1 } := by
  refine ⟨rfl, by decide, by decide, by decide, ?_, by decide⟩
  intro h
  have := congrArg DiceGameState.currentBid h
  simp [applyNetworkBid, ex3State, submitBid] at this

/-- **C3** (amended): `isValidBid` returns true for every opening bid (bounds
are left to the UI per the source comment); over a standing bid it is true iff
the quantity strictly grows, or stays equal with a strictly larger face (ties
never legal).  The authority's network-`BID` path applies the bid via
`submitBid` with no `isValidBid` check: the new bid is installed and appended
to the history unconditionally. -/
theorem isValidBid_order_amended :
    (∀ q f, isValidBid none q f = true) ∧
    (∀ b q f, isValidBid (some b) q f = true ↔
        (b.quantity < q ∨ (q = b.quantity ∧ b.face < f))) ∧
    (∀ st q f p, st.players[st.currentPlayerIndex]? = some p →
        applyNetworkBid st q f = submitBid st p.id q f ∧
        (applyNetworkBid st q f).currentBid = some { playerId := p.id, quantity := q, face := f } ∧
        (applyNetworkBid st q f).bidHistory
          = st.bidHistory ++ [{ playerId := p.id, quantity := q, face := f }]) := by
  refine ⟨fun q f => rfl, fun b q f => ?_, fun st q f p h => ?_⟩
  · show (if b.quantity < q then true
      else if q = b.quantity ∧ b.face < f then true else false) = true ↔ _
    split_ifs with h1 h2 <;> simp_all
  · unfold applyNetworkBid
    rw [h]
    exact ⟨rfl, rfl, rfl⟩

/-- Witness for the amended C3 theorem at the concrete two-player state. -/
theorem isValidBid_order_amended_witness :
    (applyNetworkBid ex3State 6 5).currentBid
        = some { playerId := "p2", quantity := 6, face := 5 } ∧
    (applyNetworkBid ex3State 6 5).bidHistory
        = ex3State.bidHistory ++ [{ playerId := "p2", quantity := 6, face := 5 }] := by
  have h := (isValidBid_order_amended.2.2 ex3State 6 5
    (exDicePlayer "p2" "Bob" [4, 4] 1) rfl)
  exact ⟨h.2.1, h.2.2⟩

/-- **C10** (confirmed): an all-joker list of at least 3 tiles is a valid set
— past 4 tiles no longer as a group but still via the run branch — while
`calculateSetScore` gives it 0, so it contributes nothing toward the 30-point
ice-breaking threshold. -/
theorem allJokers_spec (tiles : List Tile)
    (hall : ∀ t ∈ tiles, t.isJoker = true) (hlen : 3 ≤ tiles.length) :
    isValidSet tiles = true ∧ calculateSetScore tiles = 0 ∧
    (4 < tiles.length → isGroup tiles = false ∧ isRun tiles = true) := by
  have hnj : nonJokersOf tiles = [] := by
    rw [nonJokersOf, List.filter_eq_nil_iff]
    intro t ht
    simp [hall t ht]
  have hrun : isRun tiles = true := by
    rw [isRun, hnj]
  have hvalid : isValidSet tiles = true := by
    rw [isValidSet, if_neg (by omega), hrun, Bool.or_true]
  have hfind : tiles.find? (fun t => !t.isJoker) = none := by
    rw [List.find?_eq_none]
    intro t ht
    simp [hall t ht]
  have hscore : calculateSetScore tiles = 0 := by
    rw [calculateSetScore, hvalid, hfind]
    rw [runScoreAux, if_pos hrun, hnj]
    rfl
  refine ⟨hvalid, hscore, fun h4 => ⟨?_, hrun⟩⟩
  rw [isGroup, if_pos h4]

/-- Witness for C10 on five jokers. -/
theorem allJokers_spec_witness :
    isValidSet ex10Tiles = true ∧ calculateSetScore ex10Tiles = 0 ∧
    isGroup ex10Tiles = false ∧ isRun ex10Tiles = true := by
  have h := allJokers_spec ex10Tiles (by decide) (by decide)
  exact ⟨h.1, h.2.1, (h.2.2 (by decide)).1, (h.2.2 (by decide)).2⟩

/-- **C4** (confirmed): on a challenge, with `actual` the wildcard count of
the bid's face, the challenger loses iff `actual >= bid.quantity`, else the
bidder loses; the loser's die (classic) or heart (hearts) counter drops by 1
and they are eliminated exactly when it reaches 0 (starting from a positive
counter); every other player is untouched; and the moment exactly one
non-eliminated player remains, the phase becomes GAME_OVER with that player
recorded as winner and the just-resolved loser as final loser. -/
theorem challenge_resolution_spec (st : DiceGameState) (bid : Bid)
    (challengerId loserId : String) :
    (bid.quantity ≤ countDice st.players bid.face →
      challengeLoser st.players bid challengerId = challengerId) ∧
    (countDice st.players bid.face < bid.quantity →
      challengeLoser st.players bid challengerId = bid.playerId) ∧
    (resolveRound st loserId).1.players = applyPenalty st loserId ∧
    (∀ (i : Nat) (p : Player), st.players[i]? = some p →
      ∃ q, (applyPenalty st loserId)[i]? = some q ∧
        (p.id ≠ loserId → q = p) ∧
        (p.id = loserId → st.gameMode = GameMode.classic → 1 ≤ p.diceCount →
          q.diceCount = p.diceCount - 1 ∧ q.health = p.health ∧
          (q.isEliminated = true ↔ p.diceCount = 1)) ∧
        (p.id = loserId → st.gameMode = GameMode.hearts → 1 ≤ p.health →
          q.health = p.health - 1 ∧ q.diceCount = p.diceCount ∧
          (q.isEliminated = true ↔ p.health = 1))) ∧
    (∀ w : Player, (applyPenalty st loserId).filter (fun p => !p.isEliminated) = [w] →
      ∀ lp : Player, (applyPenalty st loserId).find? (fun p => p.id = loserId) = some lp →
        (resolveRound st loserId).1.phase = GamePhase.GAME_OVER ∧
        (resolveRound st loserId).1.roundWinner = some w.name ∧
        (resolveRound st loserId).1.finalLoser = some lp.name ∧
        (resolveRound st loserId).2 = RoundOutcome.gameOver w.name lp.name) := by
  refine ⟨fun h => ?_, fun h => ?_, ?_, fun i p hp => ?_, fun w hfilter lp hfind => ?_⟩
  · rw [challengeLoser, if_pos h]
  · rw [challengeLoser, if_neg (by omega)]
  · unfold resolveRound
    dsimp only
    split <;> rfl
  · unfold applyPenalty
    rw [List.getElem?_map, hp, Option.map_some']
    refine ⟨_, rfl, fun hid => ?_, fun hid hmode hcnt => ?_, fun hid hmode hcnt => ?_⟩
    · rw [if_neg hid]
    · have hne : ¬ st.gameMode = GameMode.hearts := by rw [hmode]; simp
      rw [if_pos hid, if_neg hne]
      refine ⟨rfl, rfl, ?_⟩
      show decide (p.diceCount - 1 ≤ 0) = true ↔ _
      rw [decide_eq_true_eq]
      omega
    · rw [if_pos hid, if_pos hmode]
      refine ⟨rfl, rfl, ?_⟩
      show decide (p.health - 1 ≤ 0) = true ↔ _
      rw [decide_eq_true_eq]
      omega
  · unfold resolveRound
    dsimp only
    rw [hfilter, hfind]
    exact ⟨rfl, rfl, rfl, rfl⟩

/-- Witness for C4: Bob challenges Alice's "five 4s" with five matching dice
on the table, loses his last die, and the game ends with Alice as winner and
Bob as final loser. -/
theorem challenge_resolution_spec_witness :
    challengeLoser ex3State.players { playerId := "p1", quantity := 5, face := 4 } "p2" = "p2" ∧
    (resolveRound ex3State "p2").1.phase = GamePhase.GAME_OVER ∧
    (resolveRound ex3State "p2").1.roundWinner = some "Alice" ∧
    (resolveRound ex3State "p2").1.finalLoser = some "Bob" ∧
    (resolveRound ex3State "p2").2 = RoundOutcome.gameOver "Alice" "Bob" := by
  have h := challenge_resolution_spec ex3State
    { playerId := "p1", quantity := 5, face := 4 } "p2" "p2"
  have h5 := h.2.2.2.2 (exDicePlayer "p1" "Alice" [4, 4, 1] 3) (by decide)
    { exDicePlayer "p2" "Bob" [4, 4] 1 with diceCount := 0, isEliminated := true }
    (by decide)
  exact ⟨h.1 (by decide), h5.1, h5.2.1, h5.2.2.1, h5.2.2.2⟩

/-- **C8** (confirmed): a turn-commit is rejected exactly when one of the four
`handleConfirm` guards fires — hand length not decreased, some decoded board
set invalid, hand-theft from the board (an id in the working hand that was not
in the starting hand), or ice unbroken with played score under 30 — and every
rejection leaves the local state unchanged and sends nothing; in particular a
commit with the hand length unchanged is always rejected. -/
theorem handleConfirm_reject_atomic (st : RummyLocalState) :
    ((handleConfirm st).2 = [] ↔
      (st.initialTurnHand.length ≤ st.workingHand.length ∨
        ¬ ((gridToSets st.workingGrid).map organizeSet).all isValidSet = true ∨
        stolenTiles st ≠ [] ∨
        (st.hasInitialMeld = false ∧ playedScore st < 30))) ∧
    ((handleConfirm st).2 = [] → (handleConfirm st).1 = st) ∧
    (st.workingHand.length = st.initialTurnHand.length → (handleConfirm st).2 = []) := by
  unfold handleConfirm
  dsimp only
  split_ifs with h1 h2 h3 h4 <;> simp_all <;> omega

/-- Witness for C8: the no-op commit is rejected with no state change and no
send. -/
theorem handleConfirm_reject_atomic_witness :
    (handleConfirm ex8State).2 = [] ∧ (handleConfirm ex8State).1 = ex8State := by
  have h := handleConfirm_reject_atomic ex8State
  have hmsgs := h.2.2 rfl
  exact ⟨hmsgs, h.2.1 hmsgs⟩

/-- **C9** (counterexample): the draw gate compares hand lengths only, not
hand contents — a working hand holding a different tile of the same length as
the starting hand is still allowed to draw, against the claim's "permitted
only when the working hand is unchanged". -/
theorem handleDraw_claim_counterexample :
    ex9State.workingHand ≠ ex9State.initialTurnHand ∧
    (handleDraw ex9State).2 = [RummyMsg.draw] := by
  exact ⟨by decide, rfl⟩

/-- **C9** (amended): a draw is permitted iff the working hand has the same
length as the turn's starting hand (the working arrangement is reset to the
canonical board and starting hand before the request); on the host a draw
moves exactly the deck's first tile into the acting player's re-sorted hand
(a permutation of the old hand plus that tile), or, with an empty pool, logs
the pool-empty/turn-skipped event instead; in both cases the turn advances to
the next index and the board grid is untouched. -/
theorem draw_protocol_amended (st : RummyLocalState) (hst : RummyHostState) :
    ((handleDraw st).2 ≠ [] ↔ st.workingHand.length = st.initialTurnHand.length) ∧
    ((handleDraw st).2 ≠ [] →
      (handleDraw st).1.workingGrid = st.boardGrid ∧
      (handleDraw st).1.workingHand = st.initialTurnHand ∧
      (handleDraw st).1.boardGrid = st.boardGrid) ∧
    (∀ p, hst.players[hst.currentPlayerIndex]? = some p →
      (∀ t rest, hst.deck = t :: rest →
        (hostDraw hst).1.deck = rest ∧
        (hostDraw hst).1.tilePoolCount = rest.length ∧
        (hostDraw hst).1.players[hst.currentPlayerIndex]?
          = some { p with hand := sortHand (p.hand ++ [t]) } ∧
        (sortHand (p.hand ++ [t])).Perm (t :: p.hand) ∧
        (∀ j, j ≠ hst.currentPlayerIndex →
          (hostDraw hst).1.players[j]? = hst.players[j]?) ∧
        (hostDraw hst).1.currentPlayerIndex
          = (hst.currentPlayerIndex + 1) % hst.players.length ∧
        (hostDraw hst).1.boardGrid = hst.boardGrid ∧
        (hostDraw hst).2 = [RummyEvent.drewTile p.name]) ∧
      (hst.deck = [] →
        (hostDraw hst).1.players = hst.players ∧
        (hostDraw hst).1.currentPlayerIndex
          = (hst.currentPlayerIndex + 1) % hst.players.length ∧
        (hostDraw hst).1.boardGrid = hst.boardGrid ∧
        (hostDraw hst).2 = [RummyEvent.poolEmptySkip p.name])) := by
  refine ⟨?_, ?_, fun p hp => ⟨fun t rest hdeck => ?_, fun hdeck => ?_⟩⟩
  · unfold handleDraw
    split_ifs with h <;> simp <;> omega
  · unfold handleDraw
    split_ifs with h <;> simp
  · have hperm : (sortHand (p.hand ++ [t])).Perm (t :: p.hand) :=
      (List.perm_insertionSort _ _).trans (List.perm_append_singleton _ _)
    have hidx : hst.currentPlayerIndex < hst.players.length := by
      by_contra hge
      rw [List.getElem?_eq_none (by omega)] at hp
      exact Option.noConfusion hp
    unfold hostDraw
    rw [hp, hdeck]
    refine ⟨rfl, rfl, ?_, hperm, fun j hj => ?_, rfl, rfl, rfl⟩
    · exact List.getElem?_set_eq_of_lt _ hidx
    · exact List.getElem?_set_ne (fun h => hj h.symm)
  · unfold hostDraw
    rw [hp, hdeck]
    exact ⟨rfl, rfl, rfl, rfl⟩

/-- Witness for the amended C9 theorem: a legal local draw, a host draw from a
one-tile pool, and a host draw from an empty pool, all at concrete states. -/
theorem draw_protocol_amended_witness :
    (handleDraw ex8State).2 ≠ [] ∧
    (hostDraw ex5Host).1.deck = [] ∧
    (hostDraw ex5Host).2 = [RummyEvent.drewTile "Alice"] ∧
    (hostDraw ex9EmptyHost).1.players = ex9EmptyHost.players ∧
    (hostDraw ex9EmptyHost).2 = [RummyEvent.poolEmptySkip "Alice"] := by
  have h1 := (draw_protocol_amended ex8State ex5Host).1.mpr rfl
  have h2 := ((draw_protocol_amended ex8State ex5Host).2.2
    (exRummyPlayer "p1" "Alice" [exRed 5] false) rfl).1 (exBlue 7) [] rfl
  have h3 := ((draw_protocol_amended ex8State ex9EmptyHost).2.2
    (exRummyPlayer "p1" "Alice" [exRed 5] false) rfl).2 rfl
  exact ⟨h1, h2.1, h2.2.2.2.2.2.2.2, h3.1, h3.2.2.2⟩

set_option maxRecDepth 20000 in
/-- **C5** (counterexample): the ice-breaking gate does not use
`calculateSetScore`.  With the ice unbroken, committing the freshly played run
`[5 red, 6 red, joker]` — whose `calculateSetScore` total is 18 < 30 — is
accepted (a message is sent), because the code instead sums the played tiles'
face values with a joker worth 30 (5 + 6 + 30 = 41 ≥ 30). -/
theorem iceBreaking_claim_counterexample :
    c5exState.hasInitialMeld = false ∧
    (gridToSets c5exState.workingGrid).map organizeSet
      = [[exRed 5, exRed 6, exJoker1]] ∧
    (([[exRed 5, exRed 6, exJoker1]].map calculateSetScore).sum = 18 ∧ 18 < 30) ∧
    playedScore c5exState = 41 ∧
    (handleConfirm c5exState).2 ≠ [] := by
  refine ⟨rfl, by decide, ⟨by decide, by decide⟩, by decide, by decide⟩

/-- **C5** (amended): for a player whose ice-broken flag is false, a
turn-commit is rejected whenever the sum over the tiles that left the hand of
(30 for a joker, else its face value) is under 30; and any commit the host
applies sets the acting player's `hasInitialMeld` flag to true. -/
theorem iceBreaking_playedScore_amended (st : RummyLocalState) (hst : RummyHostState) :
    (st.hasInitialMeld = false → playedScore st < 30 → (handleConfirm st).2 = []) ∧
    (∀ sets hand p, hst.players[hst.currentPlayerIndex]? = some p →
      (hostUpdateBoard hst sets hand).players[hst.currentPlayerIndex]?
        = some { p with hand := hand, hasInitialMeld := true }) := by
  constructor
  · intro hmeld hscore
    unfold handleConfirm
    dsimp only
    split_ifs with h1 h2 h3 h4 <;> simp_all
  · intro sets hand p hp
    have hidx : hst.currentPlayerIndex < hst.players.length := by
      by_contra hge
      rw [List.getElem?_eq_none (by omega)] at hp
      exact Option.noConfusion hp
    unfold hostUpdateBoard
    rw [hp]
    exact List.getElem?_set_eq_of_lt _ hidx

/-- Witness for the amended C5 theorem: the under-30 play of `[2 red]` is
rejected, and a host-applied commit flips Alice's flag to true. -/
theorem iceBreaking_playedScore_amended_witness :
    (handleConfirm c5loState).2 = [] ∧
    (hostUpdateBoard ex5Host [[exRed 5]] []).players[0]?
      = some { exRummyPlayer "p1" "Alice" [exRed 5] false with
                hand := [], hasInitialMeld := true } := by
  refine ⟨(iceBreaking_playedScore_amended c5loState ex5Host).1 rfl (by decide), ?_⟩
  exact (iceBreaking_playedScore_amended c5loState ex5Host).2 [[exRed 5]] []
    (exRummyPlayer "p1" "Alice" [exRed 5] false) rfl

/-- Closed form of the free-joker extension loop: it prepends the descending
block (in ascending list order) and appends the ascending block, with the two
block sizes given by `min`. -/
theorem extendSeq_eq (k : Nat) : ∀ (r l : Nat) (seq : List Nat),
    extendSeq k r l seq
      = List.range' (l + 1 - min (k - min k (14 - r)) l) (min (k - min k (14 - r)) l)
        ++ seq ++ List.range' r (min k (14 - r)) := by
  induction k with
  | zero => intro r l seq; simp [extendSeq]
  | succ k ih =>
    intro r l seq
    rw [extendSeq]
    by_cases hr : r ≤ 13
    · rw [if_pos hr, ih]
      have hu : min (k + 1) (14 - r) = min k (14 - (r + 1)) + 1 := by omega
      rw [hu]
      have hd : min (k + 1 - (min k (14 - (r + 1)) + 1)) l
          = min (k - min k (14 - (r + 1))) l := by omega
      rw [hd, List.range'_succ]
      simp
    · rw [if_neg hr]
      have hu0 : min (k + 1) (14 - r) = 0 := by omega
      have hu0' : min k (14 - r) = 0 := by omega
      by_cases hl : 1 ≤ l
      · rw [if_pos hl, ih]
        rw [hu0, hu0']
        have hle : min (k - 0) (l - 1) ≤ l - 1 := Nat.min_le_right _ _
        have hd : min (k + 1 - 0) l = min (k - 0) (l - 1) + 1 := by omega
        rw [hd]
        rw [show l + 1 - (min (k - 0) (l - 1) + 1) = l - min (k - 0) (l - 1) by omega]
        rw [show l - 1 + 1 - min (k - 0) (l - 1) = l - min (k - 0) (l - 1) by omega]
        rw [List.range'_concat]
        rw [show l - min (k - 0) (l - 1) + 1 * min (k - 0) (l - 1) = l by omega]
        simp
      · rw [if_neg hl, ih]
        rw [hu0, hu0']
        have hl0 : l = 0 := by omega
        subst hl0
        simp

/-- The sum of `range' a n` as a sum over the closed interval
`[a, a + n - 1]`. -/
theorem range'_sum_Icc (a : Nat) : ∀ n : Nat,
    (List.range' a n).sum = ∑ v in Finset.Icc a (a + n - 1), v := by
  intro n
  induction n with
  | zero =>
    rcases a with _ | a
    · simp
    · rw [show a + 1 + 0 - 1 = a by omega, Finset.Icc_eq_empty (by omega)]
      simp
  | succ n ih =>
    rw [List.range'_concat, List.sum_append, ih]
    rcases Nat.eq_zero_or_pos (a + n) with h0 | hpos
    · have ha : a = 0 := by omega
      have hn : n = 0 := by omega
      subst ha; subst hn
      decide
    · rw [show a + (n + 1) - 1 = (a + n - 1) + 1 by omega]
      rw [Finset.sum_Icc_succ_top (by omega)]
      simp
      omega

/-- `sortTilesByValue` really sorts by value. -/
theorem sortTilesByValue_sorted (l : List Tile) :
    (sortTilesByValue l).Sorted (fun a b => a.value ≤ b.value) := by
  haveI ht : IsTotal Tile (fun a b => a.value ≤ b.value) := ⟨fun a b => Nat.le_total _ _⟩
  haveI htr : IsTrans Tile (fun a b => a.value ≤ b.value) := ⟨fun a b c => Nat.le_trans⟩
  exact List.sorted_insertionSort _ _

/-- In a value-sorted non-empty tile list the head's value bounds the
last's. -/
theorem sorted_head_le_getLast (t0 : Tile) (rest : List Tile)
    (h : (t0 :: rest).Sorted (fun a b => a.value ≤ b.value)) :
    t0.value ≤ ((t0 :: rest).getLast (List.cons_ne_nil t0 rest)).value := by
  have hmem := List.getLast_mem (List.cons_ne_nil t0 rest)
  rcases List.mem_cons.mp hmem with h1 | h2
  · rw [h1]
  · exact List.rel_of_sorted_cons h _ h2

/-- **C7** (counterexample): `[7 red, joker, joker]` is a valid run, but its
score is computed by the group branch (3 × 7 = 21), not by the claim's run
assignment, which would put the jokers at 8 and 9 for 7 + 8 + 9 = 24. -/
theorem calculateSetScore_run_counterexample :
    isValidSet c7overlapTiles = true ∧
    isRun c7overlapTiles = true ∧ specRun c7overlapTiles ∧
    isGroup c7overlapTiles = true ∧
    calculateSetScore c7overlapTiles = 21 ∧
    (List.range' 7 3).sum = 24 ∧ (21 : Nat) ≠ 24 := by
  exact ⟨by decide, by decide, by decide, by decide, by decide, by decide, by decide⟩

/-- **C7** (amended): `calculateSetScore` scores a valid group that holds a
non-joker as `length * value` — and this branch takes precedence — while a
valid run not captured by the group branch is scored as the sum of the
contiguous range obtained by filling the internal gaps and spending the free
jokers upward to at most 13 first and then downward toward 1: with `m`/`M`
the least/greatest non-joker value, `free` the jokers left after gap-filling,
`up = min free (13 - M)` and `down = min (free - up) (m - 1)`, the score is
`∑ v in [m - down, M + up], v`.  The spec's examples score 21 and 18. -/
theorem calculateSetScore_amended (tiles : List Tile) :
    (∀ nj, tiles.find? (fun t => !t.isJoker) = some nj → isValidSet tiles = true →
      isGroup tiles = true → calculateSetScore tiles = tiles.length * nj.value) ∧
    (∀ t0 rest, sortTilesByValue (nonJokersOf tiles) = t0 :: rest →
      isValidSet tiles = true → isRun tiles = true →
      (isGroup tiles = false ∨ tiles.find? (fun t => !t.isJoker) = none) →
      ∀ m M free up down,
        m = t0.value →
        M = ((t0 :: rest).getLast (List.cons_ne_nil t0 rest)).value →
        free = (tiles.filter (fun t => t.isJoker)).length
          - (M - m + 1 - (rest.length + 1)) →
        up = min free (13 - M) →
        down = min (free - up) (m - 1) →
        calculateSetScore tiles = ∑ v in Finset.Icc (m - down) (M + up), v) ∧
    calculateSetScore c7groupTiles = 21 ∧ calculateSetScore c6runTiles = 18 := by
  refine ⟨fun nj hfind hvalid hgroup => ?_, ?_, by decide, by decide⟩
  · rw [calculateSetScore, hvalid, hfind]
    simp [hgroup]
  · intro t0 rest hsort hvalid hrun hnogroup m M free up down hm hM hfree hup hdown
    have hscore : calculateSetScore tiles = runScoreAux tiles := by
      unfold calculateSetScore
      rw [hvalid]
      rcases hnogroup with hg | hf
      · rcases hfind : tiles.find? (fun t => !t.isJoker) with _ | nj
        · rw [hfind]
          rfl
        · rw [hfind, hg]
          rfl
      · rw [hf]
        rfl
    have hmM : m ≤ M := by
      rw [hm, hM]
      exact sorted_head_le_getLast t0 rest (hsort ▸ sortTilesByValue_sorted _)
    rw [hscore, runScoreAux, if_pos hrun, hsort]
    dsimp only
    rw [← hm, ← hM]
    rw [extendSeq_eq, List.length_cons, ← hfree]
    have humin : min free (14 - (M + 1)) = up := by omega
    rw [humin]
    have hdmin : min (free - up) (m - 1) = down := by omega
    rw [hdmin]
    rcases Nat.eq_zero_or_pos m with hm0 | hmpos
    · have hd0 : down = 0 := by omega
      rw [hm0, hd0]
      have h2 : List.range' 0 (M - 0 + 1) ++ List.range' (M + 1) up
          = List.range' 0 (up + (M - 0 + 1)) := by
        have h := List.range'_append_1 0 (M - 0 + 1) up
        rw [show 0 + (M - 0 + 1) = M + 1 by omega] at h
        exact h
      rw [show List.range' (0 - 1 + 1 - 0) 0 = ([] : List Nat) from rfl]
      rw [List.nil_append, h2, range'_sum_Icc]
      rw [show 0 + (up + (M - 0 + 1)) - 1 = M + up by omega]
    · have hdm : down ≤ m - 1 := by omega
      rw [show m - 1 + 1 - down = m - down by omega]
      have h1 : List.range' (m - down) down ++ List.range' m (M - m + 1)
          = List.range' (m - down) (M - m + 1 + down) := by
        have h := List.range'_append_1 (m - down) down (M - m + 1)
        rw [show m - down + down = m by omega] at h
        exact h
      have h2 : List.range' (m - down) (M - m + 1 + down) ++ List.range' (M + 1) up
          = List.range' (m - down) (up + (M - m + 1 + down)) := by
        have h := List.range'_append_1 (m - down) (M - m + 1 + down) up
        rw [show m - down + (M - m + 1 + down) = M + 1 by omega] at h
        exact h
      rw [h1, h2, range'_sum_Icc]
      rw [show m - down + (up + (M - m + 1 + down)) - 1 = M + up by omega]

/-- Witness for the amended C7 theorem: the group `[7,7,7]` scores 3 × 7, and
the run `[12 red, 13 red, joker, joker]` scores the range sum over
`[10, 13]` — the jokers extend downward because 13 is already reached. -/
theorem calculateSetScore_amended_witness :
    calculateSetScore c7groupTiles = 21 ∧
    calculateSetScore c7runTiles = ∑ v in Finset.Icc 10 13, v := by
  constructor
  · exact (calculateSetScore_amended c7groupTiles).1 (exRed 7)
      (by decide) (by decide) (by decide)
  · exact (calculateSetScore_amended c7runTiles).2.1 (exRed 12) [exRed 13]
      (by decide) (by decide) (by decide) (Or.inl (by decide))
      12 13 2 0 2 (by decide) (by decide) (by decide) (by decide) (by decide)


/-- The seen-color loop accepts exactly the color-distinct lists avoiding
`seen`. -/
theorem groupColorsUnique_iff : ∀ (l : List Tile) (seen : List TileColor),
    groupColorsUnique l seen = true ↔
      ((l.map Tile.color).Nodup ∧ ∀ t ∈ l, t.color ∉ seen) := by
  intro l
  induction l with
  | nil => intro seen; simp [groupColorsUnique]
  | cons t rest ih =>
    intro seen
    rw [groupColorsUnique]
    by_cases hmem : t.color ∈ seen
    · simp only [if_pos hmem]
      constructor
      · intro h; exact absurd h (by simp)
      · rintro ⟨-, hall⟩
        exact absurd hmem (hall t (by simp))
    · rw [if_neg hmem, ih]
      simp only [List.map_cons, List.nodup_cons, List.mem_map, List.mem_cons]
      constructor
      · rintro ⟨hnd, hall⟩
        refine ⟨⟨?_, hnd⟩, ?_⟩
        · rintro ⟨u, hu, hue⟩
          exact hall u hu (Or.inl hue)
        · rintro x (rfl | hx)
          · exact hmem
          · intro hc
            exact hall x hx (Or.inr hc)
      · rintro ⟨⟨hne, hnd⟩, hall⟩
        refine ⟨hnd, fun u hu h => ?_⟩
        rcases h with he | hs
        · exact hne ⟨u, hu, he⟩
        · exact hall u (Or.inr hu) hs

/-- `isGroup` agrees with the spec's group shape. -/
theorem isGroup_iff_specGroup (tiles : List Tile) :
    isGroup tiles = true ↔ specGroup tiles := by
  unfold isGroup specGroup
  by_cases hlen : 4 < tiles.length
  · rw [if_pos hlen]
    simp
    omega
  · rw [if_neg hlen]
    rcases hnj : nonJokersOf tiles with _ | ⟨t0, rest⟩
    · simp
      omega
    · dsimp only
      by_cases hval : (t0 :: rest).any (fun t => t.value ≠ t0.value) = true
      · rw [if_pos hval]
        rcases List.any_eq_true.mp hval with ⟨u, hu, hune⟩
        simp only [Bool.false_eq_true, false_iff, not_and]
        intro _ hall _
        exact absurd (hall u hu t0 (by simp)) (by simpa using hune)
      · rw [if_neg hval, groupColorsUnique_iff]
        have hall : ∀ t ∈ t0 :: rest, t.value = t0.value := by
          intro t ht
          by_contra hne
          exact hval (List.any_eq_true.mpr ⟨t, ht, by simpa using hne⟩)
        constructor
        · rintro ⟨hnd, -⟩
          refine ⟨by omega, fun a ha b hb => ?_, hnd⟩
          rw [hall a ha, hall b hb]
        · rintro ⟨-, -, hnd⟩
          exact ⟨hnd, by simp⟩

/-- A value-sorted, value-distinct tile list reaches at least `head + length
- 1` at some element. -/
theorem sorted_nodup_max (l : List Tile) : ∀ (b : Tile),
    (b :: l).Sorted (fun x y => x.value ≤ y.value) →
    ((b :: l).map Tile.value).Nodup →
    ∃ x ∈ b :: l, (b.value : Int) + l.length ≤ (x.value : Int) := by
  induction l with
  | nil =>
    intro b _ _
    exact ⟨b, by simp, by simp⟩
  | cons c l' ih =>
    intro b hs hnd
    have hbc : b.value ≤ c.value := List.rel_of_sorted_cons hs c (by simp)
    have hne : b.value ≠ c.value := by
      intro he
      exact (List.nodup_cons.mp hnd).1 (by simp [he])
    rcases ih c hs.of_cons (by simpa using (List.nodup_cons.mp hnd).2) with ⟨x, hx, hxe⟩
    refine ⟨x, List.mem_cons_of_mem b hx, ?_⟩
    have : b.value < c.value := lt_of_le_of_ne hbc hne
    simp only [List.length_cons]
    push_cast at hxe ⊢
    omega

/-- The gap-filling loop of `isRun`, characterized on a value-sorted list:
it succeeds iff the values are pairwise distinct and the greatest value is
within `head + length + jokerBudget`. -/
theorem runGapCheck_sorted_iff (l : List Tile) : ∀ (a : Tile) (J : Int),
    (a :: l).Sorted (fun x y => x.value ≤ y.value) → 0 ≤ J →
    (runGapCheck (a :: l) J = true ↔
      (((a :: l).map Tile.value).Nodup ∧
        ∀ x ∈ a :: l, (x.value : Int) + 1 ≤ (a.value : Int) + (a :: l).length + J)) := by
  induction l with
  | nil =>
    intro a J _ hJ
    constructor
    · intro _
      refine ⟨by simp, ?_⟩
      intro x hx
      rw [List.mem_singleton] at hx
      subst hx
      simp only [List.length_cons, List.length_nil]
      push_cast
      omega
    · intro _
      rfl
  | cons b l' ih =>
    intro a J hs hJ
    have hab : a.value ≤ b.value := List.rel_of_sorted_cons hs b (by simp)
    have hs' : (b :: l').Sorted (fun x y => x.value ≤ y.value) := hs.of_cons
    have hble : ∀ u ∈ b :: l', b.value ≤ u.value := by
      intro u hu
      rcases List.mem_cons.mp hu with rfl | hul
      · exact le_refl _
      · exact List.rel_of_sorted_cons hs' u hul
    rw [runGapCheck]
    by_cases h0 : ((b.value : Int) - (a.value : Int)) = 0
    · rw [if_pos h0]
      constructor
      · intro hf
        exact absurd hf (by simp)
      · rintro ⟨hnd, -⟩
        exfalso
        have heq : a.value = b.value := by omega
        rw [List.map_cons, List.nodup_cons] at hnd
        exact hnd.1 (by simp [heq])
    · rw [if_neg h0]
      have halt : a.value < b.value := by omega
      by_cases h1 : 1 < (b.value : Int) - (a.value : Int)
      · rw [if_pos h1]
        by_cases hg : (b.value : Int) - (a.value : Int) - 1 ≤ J
        · rw [if_pos hg, ih b _ hs' (by omega)]
          constructor
          · rintro ⟨hnd, hbound⟩
            constructor
            · rw [List.map_cons, List.nodup_cons]
              refine ⟨?_, hnd⟩
              intro hmem
              rcases List.mem_map.mp hmem with ⟨u, hu, hue⟩
              have := hble u hu
              omega
            · intro x hx
              rcases List.mem_cons.mp hx with rfl | hxl
              · simp only [List.length_cons]
                push_cast
                omega
              · have := hbound x hxl
                simp only [List.length_cons] at this ⊢
                push_cast at this ⊢
                omega
          · rintro ⟨hnd, hbound⟩
            rw [List.map_cons, List.nodup_cons] at hnd
            refine ⟨hnd.2, ?_⟩
            intro x hx
            have := hbound x (List.mem_cons_of_mem a hx)
            simp only [List.length_cons] at this ⊢
            push_cast at this ⊢
            omega
        · rw [if_neg hg]
          constructor
          · intro hf
            exact absurd hf (by simp)
          · rintro ⟨hnd, hbound⟩
            exfalso
            rw [List.map_cons, List.nodup_cons] at hnd
            rcases sorted_nodup_max l' b hs' hnd.2 with ⟨x, hx, hxe⟩
            have := hbound x (List.mem_cons_of_mem a hx)
            simp only [List.length_cons] at this
            push_cast at this hxe
            omega
      · rw [if_neg h1]
        rw [ih b J hs' hJ]
        constructor
        · rintro ⟨hnd, hbound⟩
          constructor
          · rw [List.map_cons, List.nodup_cons]
            refine ⟨?_, hnd⟩
            intro hmem
            rcases List.mem_map.mp hmem with ⟨u, hu, hue⟩
            have := hble u hu
            omega
          · intro x hx
            rcases List.mem_cons.mp hx with rfl | hxl
            · simp only [List.length_cons]
              push_cast
              omega
            · have := hbound x hxl
              simp only [List.length_cons] at this ⊢
              push_cast at this ⊢
              omega
        · rintro ⟨hnd, hbound⟩
          rw [List.map_cons, List.nodup_cons] at hnd
          refine ⟨hnd.2, ?_⟩
          intro x hx
          have := hbound x (List.mem_cons_of_mem a hx)
          simp only [List.length_cons] at this ⊢
          push_cast at this ⊢
          omega

/-- `isRun` agrees with the spec's run shape. -/
theorem isRun_iff_specRun (tiles : List Tile) :
    isRun tiles = true ↔ specRun tiles := by
  have hle : (nonJokersOf tiles).length ≤ tiles.length := List.length_filter_le _ _
  unfold isRun specRun
  rcases hnj : nonJokersOf tiles with _ | ⟨t0, njrest⟩
  · simp
  · rw [hnj] at hle
    dsimp only
    by_cases hcol : (t0 :: njrest).any (fun t => t.color ≠ t0.color) = true
    · rw [if_pos hcol]
      rcases List.any_eq_true.mp hcol with ⟨u, hu, hune⟩
      simp only [Bool.false_eq_true, false_iff, not_and]
      intro hall
      exact absurd (hall u hu t0 (by simp)) (by simpa using hune)
    · rw [if_neg hcol]
      have hallcol : ∀ t ∈ t0 :: njrest, t.color = t0.color := by
        intro t ht
        by_contra hne
        exact hcol (List.any_eq_true.mpr ⟨t, ht, by simpa using hne⟩)
      have hperm : (sortTilesByValue (t0 :: njrest)).Perm (t0 :: njrest) :=
        List.perm_insertionSort _ _
      have hlen : (sortTilesByValue (t0 :: njrest)).length = njrest.length + 1 := by
        simpa using hperm.length_eq
      rcases hsrt : sortTilesByValue (t0 :: njrest) with _ | ⟨s0, srest⟩
      · rw [hsrt] at hlen
        simp at hlen
      · rw [hsrt] at hlen hperm
        have hsorted : (s0 :: srest).Sorted (fun x y => x.value ≤ y.value) :=
          hsrt ▸ sortTilesByValue_sorted (t0 :: njrest)
        have hJ : (0 : Int) ≤ (tiles.length : Int) - ((t0 :: njrest).length : Int) := by
          simp only [List.length_cons] at hle ⊢
          push_cast
          omega
        rw [runGapCheck_sorted_iff srest s0 _ hsorted hJ]
        have hmem : ∀ x : Tile, x ∈ s0 :: srest ↔ x ∈ t0 :: njrest := fun x => hperm.mem_iff
        have hndiff : ((s0 :: srest).map Tile.value).Nodup ↔
            ((t0 :: njrest).map Tile.value).Nodup := (hperm.map Tile.value).nodup_iff
        have hs0min : ∀ x ∈ s0 :: srest, s0.value ≤ x.value := by
          intro x hx
          rcases List.mem_cons.mp hx with rfl | hxl
          · exact le_refl _
          · exact List.rel_of_sorted_cons hsorted x hxl
        constructor
        · rintro ⟨hnd, hbound⟩
          refine ⟨fun a ha b hb => (hallcol a ha).trans (hallcol b hb).symm,
            hndiff.mp hnd, ?_⟩
          intro a ha b hb
          have hba := hbound a ((hmem a).mpr ha)
          have hsb := hs0min b ((hmem b).mpr hb)
          simp only [List.length_cons] at hba hle hlen
          push_cast at hba
          omega
        · rintro ⟨-, hnd, hbound⟩
          refine ⟨hndiff.mpr hnd, ?_⟩
          intro x hx
          have hxs := hbound x ((hmem x).mp hx) s0 ((hmem s0).mp (by simp))
          simp only [List.length_cons] at hle hlen ⊢
          push_cast
          omega

/-- **C6** (confirmed): `isValidSet` returns true iff the list has at least 3
tiles and matches the spec's group shape (at most 4 tiles, one shared
non-joker value, pairwise-distinct non-joker colors) or run shape (one shared
non-joker color, no duplicate non-joker value, value range coverable by the
tiles at hand, i.e. gaps fillable by the jokers); `[7r,7b,7k]` is a valid
group, `[5r,6r,joker]` a valid run, and `[5r,5r]` plus any third tile stays
invalid. -/
theorem isValidSet_spec (tiles : List Tile) :
    (isValidSet tiles = true ↔
      3 ≤ tiles.length ∧ (specGroup tiles ∨ specRun tiles)) ∧
    isValidSet c7groupTiles = true ∧ isValidSet c6runTiles = true ∧
    (∀ t : Tile, isValidSet [exRed 5, exRedB 5, t] = false) := by
  refine ⟨?_, by decide, by decide, fun t => ?_⟩
  · unfold isValidSet
    by_cases h3 : tiles.length < 3
    · rw [if_pos h3]
      simp only [Bool.false_eq_true, false_iff, not_and]
      intro h
      omega
    · rw [if_neg h3, Bool.or_eq_true, isGroup_iff_specGroup, isRun_iff_specRun]
      constructor
      · intro h
        exact ⟨by omega, h⟩
      · rintro ⟨-, h⟩
        exact h
  · have hg : isGroup [exRed 5, exRedB 5, t] = false := by
      rw [Bool.eq_false_iff]
      intro hgt
      rcases (isGroup_iff_specGroup _).mp hgt with ⟨-, -, hnd⟩
      cases hj : t.isJoker <;>
        simp [nonJokersOf, exRed, exRedB, hj] at hnd
    have hr : isRun [exRed 5, exRedB 5, t] = false := by
      rw [Bool.eq_false_iff]
      intro hrt
      rcases (isRun_iff_specRun _).mp hrt with ⟨-, hnd, -⟩
      cases hj : t.isJoker <;>
        simp [nonJokersOf, exRed, exRedB, hj] at hnd
    rw [show isValidSet [exRed 5, exRedB 5, t]
        = (isGroup [exRed 5, exRedB 5, t] || isRun [exRed 5, exRedB 5, t]) from rfl]
    rw [hg, hr]
    rfl



/-- Leading `null` cells with no set in progress decode to nothing. -/
theorem gridToSetsGo_replicate (k : Nat) : ∀ (i : Nat) (rest : List (Option Tile)),
    gridToSetsGo (List.replicate k none ++ rest) i [] = gridToSetsGo rest (i + k) [] := by
  induction k with
  | zero => intro i rest; simp
  | succ k ih =>
    intro i rest
    rw [List.replicate_succ, List.cons_append, gridToSetsGo]
    have hb : ¬(0 < i ∧ i % BOARD_COLS = 0 ∧ ([] : List Tile) ≠ []) := by simp
    rw [if_neg hb, if_neg hb, if_pos rfl, List.nil_append, ih]
    rw [show i + 1 + k = i + (k + 1) by omega]

/-- At a row start with a set in progress, the decoder first closes that set
and then rescans the same cell with an empty working set. -/
theorem gridToSetsGo_restart (g : List (Option Tile)) (i : Nat) (cur : List Tile)
    (hc : cur ≠ []) (hi : 0 < i) (hm : i % BOARD_COLS = 0) :
    gridToSetsGo g i cur = cur :: gridToSetsGo g i [] := by
  have hb : 0 < i ∧ i % BOARD_COLS = 0 ∧ cur ≠ [] := ⟨hi, hm, hc⟩
  have hb0 : ¬(0 < i ∧ i % BOARD_COLS = 0 ∧ ([] : List Tile) ≠ []) := by simp
  cases g with
  | nil =>
    rw [gridToSetsGo, gridToSetsGo]
    simp [hc]
  | cons cell rest =>
    cases cell with
    | some t =>
      rw [gridToSetsGo, gridToSetsGo, if_pos hb, if_pos hb, if_neg hb0, if_neg hb0]
      simp
    | none =>
      rw [gridToSetsGo, gridToSetsGo, if_pos hb, if_pos hb, if_neg hb0, if_neg hb0,
        if_pos rfl, if_pos rfl]
      simp

/-- A `null` cell away from a row start closes the set in progress. -/
theorem gridToSetsGo_none (rest : List (Option Tile)) (i : Nat) (cur : List Tile)
    (hc : cur ≠ []) (hm : i % BOARD_COLS ≠ 0) :
    gridToSetsGo (none :: rest) i cur = cur :: gridToSetsGo rest (i + 1) [] := by
  have hb : ¬(0 < i ∧ i % BOARD_COLS = 0 ∧ cur ≠ []) := by tauto
  rw [gridToSetsGo, if_neg hb, if_neg hb, if_neg hc]
  simp

/-- Consuming tile cells strictly inside a row extends the set in
progress. -/
theorem gridToSetsGo_tiles_mid (s : List Tile) : ∀ (i : Nat) (cur : List Tile)
    (rest : List (Option Tile)), i % BOARD_COLS ≠ 0 →
    i % BOARD_COLS + s.length ≤ BOARD_COLS →
    gridToSetsGo (s.map some ++ rest) i cur
      = gridToSetsGo rest (i + s.length) (cur ++ s) := by
  induction s with
  | nil => intro i cur rest _ _; simp
  | cons t s' ih =>
    intro i cur rest hm hroom
    rw [List.map_cons, List.cons_append, gridToSetsGo]
    have hb : ¬(0 < i ∧ i % BOARD_COLS = 0 ∧ cur ≠ []) := by tauto
    rw [if_neg hb, if_neg hb, List.nil_append]
    cases s' with
    | nil =>
      simp
    | cons u s'' =>
      have hm' : (i + 1) % BOARD_COLS ≠ 0 := by
        simp only [BOARD_COLS] at hm hroom ⊢
        simp only [List.length_cons] at hroom
        omega
      have hroom' : (i + 1) % BOARD_COLS + (u :: s'').length ≤ BOARD_COLS := by
        simp only [BOARD_COLS] at hm hroom ⊢
        simp only [List.length_cons] at hroom ⊢
        omega
      rw [ih (i + 1) (cur ++ [t]) rest hm' hroom']
      rw [show i + 1 + (u :: s'').length = i + (t :: u :: s'').length by
        simp only [List.length_cons]; omega]
      rw [show (cur ++ [t]) ++ u :: s'' = cur ++ t :: u :: s'' by simp]

/-- Entering a tile block with an empty working set consumes the whole
block, wherever in the row it starts, as long as it fits the row. -/
theorem gridToSetsGo_tiles (s : List Tile) (i : Nat) (rest : List (Option Tile))
    (hroom : i % BOARD_COLS + s.length ≤ BOARD_COLS) :
    gridToSetsGo (s.map some ++ rest) i [] = gridToSetsGo rest (i + s.length) s := by
  cases s with
  | nil => simp
  | cons t s' =>
    rw [List.map_cons, List.cons_append, gridToSetsGo]
    have hb : ¬(0 < i ∧ i % BOARD_COLS = 0 ∧ ([] : List Tile) ≠ []) := by simp
    rw [if_neg hb, if_neg hb, List.nil_append, List.nil_append]
    cases s' with
    | nil =>
      simp
    | cons u s'' =>
      have hm' : (i + 1) % BOARD_COLS ≠ 0 := by
        simp only [BOARD_COLS] at hroom ⊢
        simp only [List.length_cons] at hroom
        omega
      have hroom' : (i + 1) % BOARD_COLS + (u :: s'').length ≤ BOARD_COLS := by
        simp only [BOARD_COLS] at hroom ⊢
        simp only [List.length_cons] at hroom ⊢
        omega
      rw [gridToSetsGo_tiles_mid (u :: s'') (i + 1) [t] rest hm' hroom']
      rw [show i + 1 + (u :: s'').length = i + (t :: u :: s'').length by
        simp only [List.length_cons]; omega]
      rw [show ([t] : List Tile) ++ u :: s'' = t :: u :: s'' by simp]

/-- Decoding the placed sets (followed by any trailing cells) recovers the
sets in order and hands the trailing cells to the continuation index. -/
theorem placeSets_decode (sets : List (List Tile)) : ∀ (col rows i : Nat)
    (tail : List (Option Tile)),
    (∀ s ∈ sets, s ≠ [] ∧ s.length ≤ BOARD_COLS) →
    col ≤ BOARD_COLS →
    (col < BOARD_COLS → i % BOARD_COLS = col) →
    (col = BOARD_COLS → i % BOARD_COLS = 0 ∧ 0 < i) →
    gridToSetsGo ((placeSets sets col rows).1 ++ tail) i []
      = sets ++ gridToSetsGo tail (i + (placeSets sets col rows).1.length) [] := by
  induction sets with
  | nil =>
    intro col rows i tail _ _ _ _
    simp [placeSets]
  | cons s rest ih =>
    intro col rows i tail hval hcol hinv1 hinv2
    obtain ⟨hsne, hslen⟩ := hval s (by simp)
    have hvrest : ∀ u ∈ rest, u ≠ [] ∧ u.length ≤ BOARD_COLS :=
      fun u hu => hval u (by simp [hu])
    have hs1 : 1 ≤ s.length := List.length_pos.mpr hsne
    rw [placeSets]
    dsimp only
    by_cases hwrap : BOARD_COLS < col + s.length
    · simp only [if_pos hwrap]
      have hi2mod : (i + (BOARD_COLS - col)) % BOARD_COLS = 0 := by
        rcases eq_or_lt_of_le hcol with hceq | hclt
        · obtain ⟨hm, -⟩ := hinv2 hceq
          simp only [BOARD_COLS] at *
          omega
        · have hm := hinv1 hclt
          simp only [BOARD_COLS] at *
          omega
      have hi2pos : 0 < i + (BOARD_COLS - col) := by
        rcases eq_or_lt_of_le hcol with hceq | hclt
        · obtain ⟨-, hp⟩ := hinv2 hceq
          omega
        · simp only [BOARD_COLS] at *
          omega
      by_cases hsep : 0 + s.length < BOARD_COLS
      · rw [if_pos hsep]
        rw [List.append_assoc, List.append_assoc, List.cons_append]
        rw [gridToSetsGo_replicate]
        rw [gridToSetsGo_tiles s _ _ (by simp only [BOARD_COLS] at *; omega)]
        rw [gridToSetsGo_none _ _ s hsne (by simp only [BOARD_COLS] at *; omega)]
        rw [ih (0 + s.length + 1) (rows + 1) (i + (BOARD_COLS - col) + s.length + 1) tail
          hvrest (by simp only [BOARD_COLS] at *; omega)
          (fun h => by simp only [BOARD_COLS] at *; omega)
          (fun h => by simp only [BOARD_COLS] at *; omega)]
        rw [List.cons_append]
        rw [show i + (BOARD_COLS - col) + s.length + 1
              + (placeSets rest (0 + s.length + 1) (rows + 1)).1.length
            = i + (List.replicate (BOARD_COLS - col) (none : Option Tile)
                ++ (s.map some
                  ++ (none :: ((placeSets rest (0 + s.length + 1) (rows + 1)).1)))).length by
          simp only [List.length_append, List.length_map, List.length_replicate,
            List.length_cons]
          omega]
        rw [List.append_assoc]
      · rw [if_neg hsep]
        rw [List.append_assoc, List.append_assoc]
        rw [gridToSetsGo_replicate]
        rw [gridToSetsGo_tiles s _ _ (by simp only [BOARD_COLS] at *; omega)]
        rw [gridToSetsGo_restart _ _ s hsne (by omega)
          (by simp only [BOARD_COLS] at *; omega)]
        rw [ih (0 + s.length) (rows + 1) (i + (BOARD_COLS - col) + s.length) tail
          hvrest (by simp only [BOARD_COLS] at *; omega)
          (fun h => by simp only [BOARD_COLS] at *; omega)
          (fun h => by simp only [BOARD_COLS] at *; omega)]
        rw [List.cons_append]
        rw [show i + (BOARD_COLS - col) + s.length
              + (placeSets rest (0 + s.length) (rows + 1)).1.length
            = i + (List.replicate (BOARD_COLS - col) (none : Option Tile)
                ++ (s.map some ++ (placeSets rest (0 + s.length) (rows + 1)).1)).length by
          simp only [List.length_append, List.length_map, List.length_replicate]
          omega]
        rw [List.append_assoc]
    · simp only [if_neg hwrap]
      have hclt : col < BOARD_COLS := by
        simp only [BOARD_COLS] at *
        omega
      have hmod : i % BOARD_COLS = col := hinv1 hclt
      by_cases hsep : col + s.length < BOARD_COLS
      · rw [if_pos hsep]
        rw [List.nil_append, List.append_assoc, List.cons_append]
        rw [gridToSetsGo_tiles s _ _ (by simp only [BOARD_COLS] at *; omega)]
        rw [gridToSetsGo_none _ _ s hsne (by simp only [BOARD_COLS] at *; omega)]
        rw [ih (col + s.length + 1) rows (i + s.length + 1) tail
          hvrest (by simp only [BOARD_COLS] at *; omega)
          (fun h => by simp only [BOARD_COLS] at *; omega)
          (fun h => by simp only [BOARD_COLS] at *; omega)]
        rw [List.cons_append]
        rw [show i + s.length + 1 + (placeSets rest (col + s.length + 1) rows).1.length
            = i + (s.map some ++ (none :: (placeSets rest (col + s.length + 1) rows).1)).length by
          simp only [List.length_append, List.length_map, List.length_cons]
          omega]
      · rw [if_neg hsep]
        rw [List.nil_append, List.append_assoc]
        rw [gridToSetsGo_tiles s _ _ (by simp only [BOARD_COLS] at *; omega)]
        rw [gridToSetsGo_restart _ _ s hsne (by omega)
          (by simp only [BOARD_COLS] at *; omega)]
        rw [ih (col + s.length) rows (i + s.length) tail
          hvrest (by simp only [BOARD_COLS] at *; omega)
          (fun h => by simp only [BOARD_COLS] at *; omega)
          (fun h => by simp only [BOARD_COLS] at *; omega)]
        rw [List.cons_append]
        rw [show i + s.length + (placeSets rest (col + s.length) rows).1.length
            = i + (s.map some ++ (placeSets rest (col + s.length) rows).1).length by
          simp only [List.length_append, List.length_map]
          omega]

/-- A slice equation is stable under prepending a prefix. -/
theorem slice_shift (pre g full : List (Option Tile)) (p L : Nat) (u : List Tile)
    (hfull : full = pre ++ g)
    (h : (g.drop p).take L = u.map some) :
    (full.drop (pre.length + p)).take L = u.map some := by
  subst hfull
  rw [← List.drop_drop, List.drop_left, h]

/-- A block of tile cells sitting right after a prefix is a slice. -/
theorem slice_at (full pre post : List (Option Tile)) (u : List Tile)
    (hfull : full = pre ++ (u.map some ++ post)) :
    (full.drop pre.length).take u.length = u.map some := by
  subst hfull
  rw [List.drop_left, show u.length = (u.map some).length by simp, List.take_left]

/-- Every placed set occupies a contiguous slice of the placed cells that
stays within one BOARD_COLS-wide row (`col` is the column the placement
starts at, so cell `p` of the result sits at column `(col + p) % 13`). -/
theorem placeSets_positions (sets : List (List Tile)) : ∀ (col rows : Nat),
    (∀ s ∈ sets, s ≠ [] ∧ s.length ≤ BOARD_COLS) →
    col ≤ BOARD_COLS →
    ∀ u ∈ sets, ∃ p,
      ((placeSets sets col rows).1.drop p).take u.length = u.map some ∧
      (col + p) % BOARD_COLS + u.length ≤ BOARD_COLS := by
  induction sets with
  | nil =>
    intro col rows _ _ u hu
    cases hu
  | cons s rest ih =>
    intro col rows hval hcol u hu
    obtain ⟨hsne, hslen⟩ := hval s (by simp)
    have hvrest : ∀ v ∈ rest, v ≠ [] ∧ v.length ≤ BOARD_COLS :=
      fun v hv => hval v (by simp [hv])
    have hs1 : 1 ≤ s.length := List.length_pos.mpr hsne
    rw [placeSets]
    dsimp only
    rcases List.mem_cons.mp hu with rfl | hurest
    · by_cases hwrap : BOARD_COLS < col + u.length
      · simp only [if_pos hwrap]
        by_cases hsep : 0 + u.length < BOARD_COLS
        · rw [if_pos hsep]
          refine ⟨(List.replicate (BOARD_COLS - col) (none : Option Tile)).length,
            slice_at _ (List.replicate (BOARD_COLS - col) none)
              (none :: (placeSets rest (0 + u.length + 1) (rows + 1)).1) u (by simp), ?_⟩
          simp only [List.length_replicate, BOARD_COLS] at *
          omega
        · rw [if_neg hsep]
          refine ⟨(List.replicate (BOARD_COLS - col) (none : Option Tile)).length,
            slice_at _ (List.replicate (BOARD_COLS - col) none)
              ((placeSets rest (0 + u.length) (rows + 1)).1) u (by simp), ?_⟩
          simp only [List.length_replicate, BOARD_COLS] at *
          omega
      · simp only [if_neg hwrap]
        by_cases hsep : col + u.length < BOARD_COLS
        · rw [if_pos hsep]
          refine ⟨([] : List (Option Tile)).length,
            slice_at _ []
              (none :: (placeSets rest (col + u.length + 1) rows).1) u (by simp), ?_⟩
          simp only [List.length_nil, BOARD_COLS] at *
          omega
        · rw [if_neg hsep]
          refine ⟨([] : List (Option Tile)).length,
            slice_at _ []
              ((placeSets rest (col + u.length) rows).1) u (by simp), ?_⟩
          simp only [List.length_nil, BOARD_COLS] at *
          omega
    · by_cases hwrap : BOARD_COLS < col + s.length
      · simp only [if_pos hwrap]
        by_cases hsep : 0 + s.length < BOARD_COLS
        · rw [if_pos hsep]
          obtain ⟨p, hslice, hcolbound⟩ := ih (0 + s.length + 1) (rows + 1)
            hvrest (by simp only [BOARD_COLS] at *; omega) u hurest
          refine ⟨(List.replicate (BOARD_COLS - col) (none : Option Tile)
              ++ (s.map some ++ [(none : Option Tile)])).length + p,
            slice_shift _ _ _ _ _ _ (by simp) hslice, ?_⟩
          simp only [List.length_append, List.length_replicate, List.length_map,
            List.length_cons, List.length_nil, BOARD_COLS] at *
          omega
        · rw [if_neg hsep]
          obtain ⟨p, hslice, hcolbound⟩ := ih (0 + s.length) (rows + 1)
            hvrest (by simp only [BOARD_COLS] at *; omega) u hurest
          refine ⟨(List.replicate (BOARD_COLS - col) (none : Option Tile)
              ++ s.map some).length + p,
            slice_shift _ _ _ _ _ _ (by simp) hslice, ?_⟩
          simp only [List.length_append, List.length_replicate, List.length_map,
            BOARD_COLS] at *
          omega
      · simp only [if_neg hwrap]
        by_cases hsep : col + s.length < BOARD_COLS
        · rw [if_pos hsep]
          obtain ⟨p, hslice, hcolbound⟩ := ih (col + s.length + 1) rows
            hvrest (by simp only [BOARD_COLS] at *; omega) u hurest
          refine ⟨(s.map some ++ [(none : Option Tile)]).length + p,
            slice_shift _ _ _ _ _ _ (by simp) hslice, ?_⟩
          simp only [List.length_append, List.length_map, List.length_cons,
            List.length_nil, BOARD_COLS] at *
          omega
        · rw [if_neg hsep]
          obtain ⟨p, hslice, hcolbound⟩ := ih (col + s.length) rows
            hvrest (by simp only [BOARD_COLS] at *; omega) u hurest
          refine ⟨(s.map some).length + p,
            slice_shift _ _ _ _ _ _ (by simp) hslice, ?_⟩
          simp only [List.length_map, BOARD_COLS] at *
          omega

/-- A slice located inside the first part of an append survives the
append. -/
theorem slice_extend (g T : List (Option Tile)) (p : Nat) (u : List Tile)
    (h : (g.drop p).take u.length = u.map some) :
    ((g ++ T).drop p).take u.length = u.map some := by
  have hlen : u.length ≤ (g.drop p).length := by
    have hh := congrArg List.length h
    simp only [List.length_take, List.length_map] at hh
    omega
  rw [List.drop_append_eq_append_drop, List.take_append_of_le_length hlen, h]

/-- **C1** (confirmed): for every list of non-empty sets of width at most
`BOARD_COLS` = 13, decoding after encoding is the identity — the original
sets come back in order with every tile preserved — and every encoded set
occupies a contiguous slice of the grid lying within a single 13-cell row. -/
theorem gridToSets_setsToGrid_roundTrip (sets : List (List Tile))
    (h : ∀ s ∈ sets, s ≠ [] ∧ s.length ≤ BOARD_COLS) :
    gridToSets (setsToGrid sets) = sets ∧
    ∀ s ∈ sets, ∃ p, ((setsToGrid sets).drop p).take s.length = s.map some ∧
      p % BOARD_COLS + s.length ≤ BOARD_COLS := by
  have haux : ∀ k i, gridToSetsGo (List.replicate k (none : Option Tile)) i [] = [] := by
    intro k i
    have h2 := gridToSetsGo_replicate k i []
    rw [List.append_nil] at h2
    rw [h2]
    rfl
  constructor
  · unfold gridToSets setsToGrid
    dsimp only
    rw [List.append_assoc]
    rw [placeSets_decode sets 0 0 0 _ h (by simp [BOARD_COLS])
      (fun _ => by simp) (fun hc => by simp [BOARD_COLS] at hc)]
    rw [gridToSetsGo_replicate, haux, List.append_nil]
  · intro s hs
    obtain ⟨p, hslice, hbound⟩ := placeSets_positions sets 0 0 h
      (by simp [BOARD_COLS]) s hs
    refine ⟨p, ?_, by simpa using hbound⟩
    unfold setsToGrid
    dsimp only
    rw [List.append_assoc]
    exact slice_extend _ _ p s hslice


/-- Witness for C1 at the spec's example `[[A,B,C],[D,E]]`. -/
theorem gridToSets_setsToGrid_roundTrip_witness :
    gridToSets (setsToGrid c1Sets) = c1Sets ∧
    ∃ p, ((setsToGrid c1Sets).drop p).take 2 = [exBlue 7, exBlack 7].map some ∧
      p % BOARD_COLS + 2 ≤ BOARD_COLS := by
  have h := gridToSets_setsToGrid_roundTrip c1Sets (by decide)
  exact ⟨h.1, h.2 [exBlue 7, exBlack 7] (by simp [c1Sets])⟩

end Perudo
